import Mathlib

/-!
Shallow embedding of the pairwise-alignment core library: the `Pos`
coordinate model with its genuine partial order, the `CigarOp`/`Cigar`
run-length encoding and its codec, the `CostModel` scoring policies and
their validation, the `Job`/`JobOutput`/`JobResult` schema with its
self-describing serialization, and the human-readable byte-size parsing.

Types declared in `src/src/lib.rs` (`CigarOp`, `Cigar`, `CostModel`,
`Job`, `JobOutput`, `JobResult`, `Costs`, `Algorithm`) are translated
directly from the source.  Operations the repository provides outside the
given sources (the coordinate module, the Cigar codec, cost evaluation,
cost-model validation, serialization, the byte-size parsing routine) are
modelled from the specification, as marked on each definition.
-/

namespace PaTypes

/-- The cost of an alignment; `pub type Cost = i32` in the source. -/
abbrev Cost := Int

/-- A size in bytes; `pub type Bytes = u64` in the source. -/
abbrev Bytes := Nat

/-- Modelled from the spec: a position is an ordered pair of signed
integers `(i, j)`, a cell of the alignment matrix. -/
structure Pos where
  i : Int
  j : Int
deriving DecidableEq, Repr

/-- Modelled from the spec: `diag = i - j`, constant along a diagonal move. -/
def Pos.diag (p : Pos) : Int :=
  p.i - p.j

/-- Modelled from the spec: `anti_diag = i + j`, constant along an
anti-diagonal front. -/
def Pos.anti_diag (p : Pos) : Int :=
  p.i + p.j

/-- Modelled from the spec: `mirror = (j, i)`, swapping the two sequences. -/
def Pos.mirror (p : Pos) : Pos :=
  ⟨p.j, p.i⟩

/-- Modelled from the spec: the product partial order,
`(a,b) ≤ (c,d)` iff `a ≤ c ∧ b ≤ d`. -/
def Pos.le (p q : Pos) : Bool :=
  decide (p.i ≤ q.i) && decide (p.j ≤ q.j)

/-- The four possible outcomes of the partial-order comparison. -/
inductive POrder where
  | Less
  | Equal
  | Greater
  | Incomparable
deriving DecidableEq, Repr

/-- Modelled from the spec: the explicit four-way partial-order
comparison; `Incomparable` is never collapsed into the other results. -/
def Pos.pcmp (p q : Pos) : POrder :=
  if p = q then POrder.Equal
  else if p.le q then POrder.Less
  else if q.le p then POrder.Greater
  else POrder.Incomparable

/-- The four edit-script primitives, from `enum CigarOp` in the source. -/
inductive CigarOp where
  | Match
  | Sub
  | Del
  | Ins
deriving DecidableEq, Repr

/-- A run length stored in a Cigar is a `u32` in the source: a
non-negative integer strictly below `2^32`. -/
abbrev RunLen := { n : Nat // n < 2 ^ 32 }

/-- From `struct Cigar` in the source: an ordered sequence of
`(CigarOp, u32)` pairs. -/
structure Cigar where
  operations : List (CigarOp × RunLen)

/-- An edit script at the `(operation, natural run-length)` level. -/
abbrev Script := List (CigarOp × Nat)

/-- The run-length pairs of a Cigar with the `u32` lengths read off as
natural numbers. -/
def Cigar.natOps (c : Cigar) : Script :=
  c.operations.map (fun p => (p.1, p.2.val))

/-- Decode errors: a zero run-length is invalid input. -/
inductive DecodeError where
  | zeroLengthRun
deriving DecidableEq, Repr

/-- Modelled from the spec: expand a run-length script into its
unit-step operation sequence. -/
def expandScript : Script → List CigarOp
  | [] => []
  | (op, n) :: rest => List.replicate n op ++ expandScript rest

/-- Modelled from the spec: decoding reconstructs the unit-step operation
sequence and rejects any zero run-length. -/
def decodeOps : Script → Except DecodeError (List CigarOp)
  | [] => Except.ok []
  | (_, 0) :: _ => Except.error DecodeError.zeroLengthRun
  | (op, Nat.succ k) :: rest =>
      (decodeOps rest).map (fun ops => List.replicate (k + 1) op ++ ops)

/-- Modelled from the spec: decoding a Cigar reconstructs its unit-step
operation sequence, rejecting zero run-lengths. -/
def Cigar.decode (c : Cigar) : Except DecodeError (List CigarOp) :=
  decodeOps c.natOps

/-- Modelled from the spec: encoding merges consecutive identical
operations into the canonical run-length form. -/
def encodeOps : List CigarOp → Script
  | [] => []
  | a :: rest =>
      match encodeOps rest with
      | [] => [(a, 1)]
      | (b, m) :: tail =>
          if a = b then (a, m + 1) :: tail else (a, 1) :: (b, m) :: tail

/-- Attach `u32` bounds to the run lengths of a script. -/
def toRunLens : (s : Script) → (∀ p ∈ s, p.2 < 2 ^ 32) → List (CigarOp × RunLen)
  | [], _ => []
  | p :: rest, h =>
      (p.1, ⟨p.2, h p (by simp)⟩) ::
        toRunLens rest (fun q hq => h q (by simp [hq]))

/-- Every run length produced by `encodeOps` is bounded by the number of
unit operations encoded. -/
theorem encodeOps_len_le (ops : List CigarOp) :
    ∀ p ∈ encodeOps ops, p.2 ≤ ops.length := by
  induction ops with
  | nil => simp [encodeOps]
  | cons a rest ih =>
      intro p hp
      simp only [encodeOps] at hp
      cases hrec : encodeOps rest with
      | nil =>
          rw [hrec] at hp
          simp at hp
          simp [hp]
      | cons q tail =>
          rw [hrec] at hp
          by_cases hab : a = q.1
          · simp [hab] at hp
            rcases hp with hp | hp
            · have := ih (q.1, q.2) (by rw [hrec]; simp)
              simp at this
              simp [hp]
              omega
            · have := ih p (by rw [hrec]; simp [hp])
              simp [List.length_cons]
              omega
          · simp [hab] at hp
            rcases hp with hp | hp
            · simp [hp]
            · have := ih p (by rw [hrec]; simp [hp])
              simp [List.length_cons]
              omega

/-- Modelled from the spec: encode a unit-step operation sequence into a
Cigar, merging consecutive identical operations.  The length bound makes
every run length fit in a `u32`. -/
def Cigar.encode (ops : List CigarOp) (h : ops.length < 2 ^ 32) : Cigar :=
  ⟨toRunLens (encodeOps ops)
    (fun p hp => lt_of_le_of_lt (encodeOps_len_le ops p hp) h)⟩

/-- From `enum CostModel` in the source: unit, linear, and affine
variants with `i32` cost fields. -/
inductive CostModel where
  | Unit
  | Linear (sub indel : Cost)
  | Affine (sub gapopen extend : Cost)
deriving DecidableEq, Repr

/-- Configuration errors raised when validating a `CostModel`. -/
inductive ConfigError where
  | invalidCostModel
deriving DecidableEq, Repr

/-- The documented constraints on a `CostModel`'s fields: all fields
non-negative, `sub > 0` and `indel > 0` for `Linear`, and `sub > 0`,
`open >= 0`, `extend > 0` for `Affine`. -/
def CostModel.wellFormed : CostModel → Prop
  | CostModel.Unit => True
  | CostModel.Linear sub indel => 0 < sub ∧ 0 < indel
  | CostModel.Affine sub gapopen extend => 0 < sub ∧ 0 ≤ gapopen ∧ 0 < extend

instance : (m : CostModel) → Decidable m.wellFormed
  | CostModel.Unit => Decidable.isTrue trivial
  | CostModel.Linear s i => inferInstanceAs (Decidable (0 < s ∧ 0 < i))
  | CostModel.Affine s o e => inferInstanceAs (Decidable (0 < s ∧ 0 ≤ o ∧ 0 < e))

/-- Modelled from the spec: constructing a `CostModel` validates the
numeric fields eagerly and fails with a configuration error when a field
is negative or a required-positive field is zero. -/
def CostModel.validate (m : CostModel) : Except ConfigError CostModel :=
  if m.wellFormed then Except.ok m else Except.error ConfigError.invalidCostModel

/-- `true` exactly on the two gap operations `Del` and `Ins`. -/
def isGapOp : CigarOp → Bool
  | CigarOp.Del => true
  | CigarOp.Ins => true
  | _ => false

/-- Modelled from the spec: unit cost, charging 1 per `Sub`, `Del` or
`Ins` unit operation and nothing for `Match`. -/
def unitCost : Script → Int
  | [] => 0
  | (op, n) :: rest => (if op = CigarOp.Match then 0 else (n : Int)) + unitCost rest

/-- Modelled from the spec: linear cost, charging `sub` per substitution
unit and `indel` per deletion or insertion unit. -/
def linearCost (sub indel : Cost) : Script → Int
  | [] => 0
  | (op, n) :: rest =>
      (match op with
       | CigarOp.Match => 0
       | CigarOp.Sub => sub * (n : Int)
       | CigarOp.Del => indel * (n : Int)
       | CigarOp.Ins => indel * (n : Int)) + linearCost sub indel rest

/-- Modelled from the spec: affine cost, charging `sub` per substitution
unit and, for each maximal gap run of one kind, `open + extend * length`.
The `prev` argument remembers which gap operation (if any) is currently
running: continuing it costs no new `open`, while switching between `Del`
and `Ins`, or resuming after a `Match`/`Sub`, opens a new gap run. -/
def affineAux (sub gapopen extend : Cost) : Option CigarOp → Script → Int
  | _, [] => 0
  | prev, (op, n) :: rest =>
      match op with
      | CigarOp.Match => affineAux sub gapopen extend none rest
      | CigarOp.Sub => sub * (n : Int) + affineAux sub gapopen extend none rest
      | CigarOp.Del =>
          (if prev = some CigarOp.Del then 0 else gapopen) + extend * (n : Int) +
            affineAux sub gapopen extend (some CigarOp.Del) rest
      | CigarOp.Ins =>
          (if prev = some CigarOp.Ins then 0 else gapopen) + extend * (n : Int) +
            affineAux sub gapopen extend (some CigarOp.Ins) rest

/-- Modelled from the spec: the scoring policy of each `CostModel`
variant, evaluated on a classified edit script. -/
def CostModel.cost : CostModel → Script → Int
  | CostModel.Unit, s => unitCost s
  | CostModel.Linear sub indel, s => linearCost sub indel s
  | CostModel.Affine sub gapopen extend, s => affineAux sub gapopen extend none s

/-- The total charge of the maximal gap runs of a canonical run-length
decomposition: `open + extend * length` for every run of `Del`s or of
`Ins`s, as the claim states the affine policy. -/
def gapRunCharge (gapopen extend : Cost) : Script → Int
  | [] => 0
  | (op, n) :: rest =>
      (if isGapOp op then gapopen + extend * (n : Int) else 0) +
        gapRunCharge gapopen extend rest

/-- Head adjustment used to state the affine invariant: when the first
maximal run continues the gap operation already open in the accumulator
state, its `open` charge is not paid again. -/
def headAdj (gapopen : Cost) (prev : Option CigarOp) : Script → Int
  | (op, _) :: _ =>
      if isGapOp op ∧ prev = some op then gapopen else 0
  | [] => 0

/-- The formulas the claim states for the three cost-model variants,
written over unit-operation counts and maximal gap runs. -/
def claimCost : CostModel → Script → Int
  | CostModel.Unit, s =>
      (((expandScript s).count CigarOp.Sub + (expandScript s).count CigarOp.Del +
        (expandScript s).count CigarOp.Ins : Nat) : Int)
  | CostModel.Linear sub indel, s =>
      sub * ((expandScript s).count CigarOp.Sub : Int) +
        indel * (((expandScript s).count CigarOp.Del +
          (expandScript s).count CigarOp.Ins : Nat) : Int)
  | CostModel.Affine sub gapopen extend, s =>
      sub * ((expandScript s).count CigarOp.Sub : Int) +
        gapRunCharge gapopen extend (encodeOps (expandScript s))

/-- Errors returned by the byte-size parsing routine. -/
inductive ParseError where
  | noDigits
  | badSuffix
deriving DecidableEq, Repr

/-- Numeric value of a decimal digit character. -/
def digitVal (c : Char) : Nat :=
  c.toNat - 48

/-- Value of a list of decimal digit characters. -/
def digitsToNat (ds : List Char) : Nat :=
  ds.foldl (fun a c => 10 * a + digitVal c) 0

/-- Modelled from the spec: the multiplier of a (lower-cased) size
suffix.  Bare numbers and `b` count plain bytes; `k`/`m`/`g` (optionally
followed by `b`) use base 1000; `ki`/`mi`/`gi` (optionally followed by
`b`) use base 1024.  Unknown suffixes have no multiplier. -/
def suffixMult : List Char → Option Nat
  | [] => some 1
  | ['b'] => some 1
  | ['k'] => some 1000
  | ['k', 'b'] => some 1000
  | ['k', 'i'] => some 1024
  | ['k', 'i', 'b'] => some 1024
  | ['m'] => some 1000000
  | ['m', 'b'] => some 1000000
  | ['m', 'i'] => some 1048576
  | ['m', 'i', 'b'] => some 1048576
  | ['g'] => some 1000000000
  | ['g', 'b'] => some 1000000000
  | ['g', 'i'] => some 1073741824
  | ['g', 'i', 'b'] => some 1073741824
  | _ => none

/-- Modelled from the spec: `parse_bytes` (a thin wrapper over the
`parse_size` routine) reads a decimal number, optional spaces, and an
optional case-insensitive suffix, with `K/M/G` in base 1000 and
`Ki/Mi/Gi` in base 1024 and an optional trailing `B`; anything else is a
parse error. -/
def parseBytes (s : String) : Except ParseError Bytes :=
  let cs := s.toList
  let ds := cs.takeWhile (fun c => c.isDigit)
  let rest := cs.dropWhile (fun c => c.isDigit)
  if ds.isEmpty then Except.error ParseError.noDigits
  else
    match suffixMult ((rest.dropWhile (fun c => c == ' ')).map Char.toLower) with
    | some m => Except.ok (digitsToNat ds * m)
    | none => Except.error ParseError.badSuffix

/-- A `std::time::Duration`, as serialized: whole seconds and the
nanosecond remainder. -/
structure Duration where
  secs : Nat
  nanos : Nat
deriving DecidableEq, Repr

/-- From `struct Costs` in the source: block-aligner-style scores. -/
structure Costs where
  match_cost : Int
  mismatch_cost : Int
  gap_open : Int
  gap_extend : Int
deriving DecidableEq, Repr

/-- From `enum Algorithm` in the source: per-algorithm parameter sets. -/
inductive Algorithm where
  | BlockAligner (costs : Costs) (min_size max_size : Nat)
deriving DecidableEq, Repr

/-- From `struct Job` in the source: one unit of benchmarking work. -/
structure Job where
  dataset : String
  costs : CostModel
  traceback : Bool
  algo : Algorithm
deriving DecidableEq, Repr

/-- From `struct JobOutput` in the source: the measured output of a job,
one cost (and, with traceback, one Cigar) per aligned pair. -/
structure JobOutput where
  runtime : Duration
  memory : Bytes
  costs : List Cost
  cigars : List Cigar

/-- From `struct JobResult` in the source: the job together with its
optional output; `none` means attempted with no measurement. -/
structure JobResult where
  job : Job
  output : Option JobOutput

/-- A structured, self-describing serialized value: the target of the
serialization modelled from the spec. -/
inductive Json where
  | null
  | bool (b : Bool)
  | num (n : Int)
  | str (s : String)
  | arr (elems : List Json)
  | obj (fields : List (String × Json))

/-- Modelled from the spec: serialize a `CigarOp` as its variant name. -/
def serializeCigarOp : CigarOp → Json
  | CigarOp.Match => Json.str "Match"
  | CigarOp.Sub => Json.str "Sub"
  | CigarOp.Del => Json.str "Del"
  | CigarOp.Ins => Json.str "Ins"

/-- Modelled from the spec: serialize a `Cigar` with its field name and
its `(operation, run-length)` pairs. -/
def serializeCigar (c : Cigar) : Json :=
  Json.obj [("operations",
    Json.arr (c.operations.map (fun p =>
      Json.arr [serializeCigarOp p.1, Json.num (Int.ofNat p.2.val)])))]

/-- Modelled from the spec: serialize a `CostModel` as a tagged union
carrying its variant tag and named fields. -/
def serializeCostModel : CostModel → Json
  | CostModel.Unit => Json.str "Unit"
  | CostModel.Linear sub indel =>
      Json.obj [("Linear", Json.obj [("sub", Json.num sub), ("indel", Json.num indel)])]
  | CostModel.Affine sub gapopen extend =>
      Json.obj [("Affine", Json.obj
        [("sub", Json.num sub), ("open", Json.num gapopen), ("extend", Json.num extend)])]

/-- Modelled from the spec: serialize an `Algorithm` as a tagged union. -/
def serializeAlgorithm : Algorithm → Json
  | Algorithm.BlockAligner c mn mx =>
      Json.obj [("BlockAligner", Json.obj
        [("costs", Json.obj
          [("match_cost", Json.num c.match_cost),
           ("mismatch_cost", Json.num c.mismatch_cost),
           ("gap_open", Json.num c.gap_open),
           ("gap_extend", Json.num c.gap_extend)]),
         ("min_size", Json.num (Int.ofNat mn)),
         ("max_size", Json.num (Int.ofNat mx))])]

/-- Modelled from the spec: serialize a `Job` with field names preserved. -/
def serializeJob (j : Job) : Json :=
  Json.obj [("dataset", Json.str j.dataset),
            ("costs", serializeCostModel j.costs),
            ("traceback", Json.bool j.traceback),
            ("algo", serializeAlgorithm j.algo)]

/-- Modelled from the spec: serialize a `JobOutput` with field names
preserved. -/
def serializeJobOutput (o : JobOutput) : Json :=
  Json.obj [("runtime", Json.obj
              [("secs", Json.num (Int.ofNat o.runtime.secs)),
               ("nanos", Json.num (Int.ofNat o.runtime.nanos))]),
            ("memory", Json.num (Int.ofNat o.memory)),
            ("costs", Json.arr (o.costs.map Json.num)),
            ("cigars", Json.arr (o.cigars.map serializeCigar))]

/-- Modelled from the spec: serialize a `JobResult`; an absent output is
`null`, no placeholder `JobOutput` is required. -/
def serializeJobResult (r : JobResult) : Json :=
  Json.obj [("job", serializeJob r.job),
            ("output", match r.output with
                       | none => Json.null
                       | some o => serializeJobOutput o)]

/-- Deserialization errors. -/
inductive DeError where
  | invalid
deriving DecidableEq, Repr

/-- Modelled from the spec: read back a `CigarOp` from its variant name. -/
def deserializeCigarOp : Json → Except DeError CigarOp
  | Json.str "Match" => Except.ok CigarOp.Match
  | Json.str "Sub" => Except.ok CigarOp.Sub
  | Json.str "Del" => Except.ok CigarOp.Del
  | Json.str "Ins" => Except.ok CigarOp.Ins
  | _ => Except.error DeError.invalid

/-- Modelled from the spec: read back a list of Cigar pairs, checking the
`u32` bound on each run length. -/
def deserializeCigarPairs : List Json → Except DeError (List (CigarOp × RunLen))
  | [] => Except.ok []
  | Json.arr [opJ, Json.num (Int.ofNat n)] :: rest =>
      match deserializeCigarOp opJ, deserializeCigarPairs rest with
      | Except.ok op, Except.ok tail =>
          if h : n < 2 ^ 32 then Except.ok ((op, ⟨n, h⟩) :: tail)
          else Except.error DeError.invalid
      | _, _ => Except.error DeError.invalid
  | _ => Except.error DeError.invalid

/-- Modelled from the spec: read back a `Cigar`. -/
def deserializeCigar : Json → Except DeError Cigar
  | Json.obj [("operations", Json.arr ps)] =>
      (deserializeCigarPairs ps).map Cigar.mk
  | _ => Except.error DeError.invalid

/-- Modelled from the spec: read back a `CostModel` from its tagged form. -/
def deserializeCostModel : Json → Except DeError CostModel
  | Json.str "Unit" => Except.ok CostModel.Unit
  | Json.obj [("Linear", Json.obj [("sub", Json.num s), ("indel", Json.num i)])] =>
      Except.ok (CostModel.Linear s i)
  | Json.obj [("Affine", Json.obj
      [("sub", Json.num s), ("open", Json.num o), ("extend", Json.num e)])] =>
      Except.ok (CostModel.Affine s o e)
  | _ => Except.error DeError.invalid

/-- Modelled from the spec: read back an `Algorithm` from its tagged form. -/
def deserializeAlgorithm : Json → Except DeError Algorithm
  | Json.obj [("BlockAligner", Json.obj
      [("costs", Json.obj
        [("match_cost", Json.num a),
         ("mismatch_cost", Json.num b),
         ("gap_open", Json.num c),
         ("gap_extend", Json.num d)]),
       ("min_size", Json.num (Int.ofNat mn)),
       ("max_size", Json.num (Int.ofNat mx))])] =>
      Except.ok (Algorithm.BlockAligner ⟨a, b, c, d⟩ mn mx)
  | _ => Except.error DeError.invalid

/-- Modelled from the spec: read back a `Job`. -/
def deserializeJob : Json → Except DeError Job
  | Json.obj [("dataset", Json.str d), ("costs", c),
              ("traceback", Json.bool t), ("algo", a)] =>
      match deserializeCostModel c, deserializeAlgorithm a with
      | Except.ok cm, Except.ok alg => Except.ok ⟨d, cm, t, alg⟩
      | _, _ => Except.error DeError.invalid
  | _ => Except.error DeError.invalid

/-- Modelled from the spec: read back a list of costs. -/
def deserializeCosts : List Json → Except DeError (List Cost)
  | [] => Except.ok []
  | Json.num n :: rest => (deserializeCosts rest).map (fun l => n :: l)
  | _ => Except.error DeError.invalid

/-- Modelled from the spec: read back a list of Cigars. -/
def deserializeCigars : List Json → Except DeError (List Cigar)
  | [] => Except.ok []
  | j :: rest =>
      match deserializeCigar j, deserializeCigars rest with
      | Except.ok c, Except.ok l => Except.ok (c :: l)
      | _, _ => Except.error DeError.invalid

/-- Modelled from the spec: read back a `JobOutput`. -/
def deserializeJobOutput : Json → Except DeError JobOutput
  | Json.obj [("runtime", Json.obj
                [("secs", Json.num (Int.ofNat s)), ("nanos", Json.num (Int.ofNat n))]),
              ("memory", Json.num (Int.ofNat m)),
              ("costs", Json.arr cs),
              ("cigars", Json.arr gs)] =>
      match deserializeCosts cs, deserializeCigars gs with
      | Except.ok costs, Except.ok cigars => Except.ok ⟨⟨s, n⟩, m, costs, cigars⟩
      | _, _ => Except.error DeError.invalid
  | _ => Except.error DeError.invalid

/-- Modelled from the spec: read back a `JobResult`; a `null` output
field deserializes to `none` with no placeholder `JobOutput`. -/
def deserializeJobResult : Json → Except DeError JobResult
  | Json.obj [("job", jj), ("output", oj)] =>
      match deserializeJob jj, oj with
      | Except.ok job, Json.null => Except.ok ⟨job, none⟩
      | Except.ok job, o =>
          (deserializeJobOutput o).map (fun out => ⟨job, some out⟩)
      | _, _ => Except.error DeError.invalid
  | _ => Except.error DeError.invalid

/-- `encodeOps` returns the empty run list only on the empty sequence. -/
theorem encodeOps_eq_nil (l : List CigarOp) (h : encodeOps l = []) : l = [] := by
  cases l with
  | nil => rfl
  | cons a rest =>
      exfalso
      simp only [encodeOps] at h
      cases hrec : encodeOps rest with
      | nil => rw [hrec] at h; simp at h
      | cons q tail =>
          rw [hrec] at h
          by_cases hab : a = q.1 <;> simp [hab] at h

/-- Every run length produced by `encodeOps` is positive. -/
theorem encodeOps_pos (l : List CigarOp) : ∀ p ∈ encodeOps l, 0 < p.2 := by
  induction l with
  | nil => simp [encodeOps]
  | cons a rest ih =>
      intro p hp
      simp only [encodeOps] at hp
      cases hrec : encodeOps rest with
      | nil => rw [hrec] at hp; simp at hp; simp [hp]
      | cons q tail =>
          rw [hrec] at hp
          by_cases hab : a = q.1
          · simp [hab] at hp
            rcases hp with hp | hp
            · simp [hp]
            · exact ih p (by rw [hrec]; simp [hp])
          · simp [hab] at hp
            rcases hp with hp | hp
            · simp [hp]
            · exact ih p (by rw [hrec]; simp [hp])

/-- `encodeOps` of the empty sequence is the empty run list. -/
theorem encodeOps_nil : encodeOps ([] : List CigarOp) = [] := rfl

/-- The single unfolding of `encodeOps` on a cons cell. -/
theorem encodeOps_cons (a : CigarOp) (l : List CigarOp) :
    encodeOps (a :: l) =
      match encodeOps l with
      | [] => [(a, 1)]
      | (b, m) :: tail =>
          if a = b then (a, m + 1) :: tail else (a, 1) :: (b, m) :: tail := rfl

/-- Expanding the canonical run-length form recovers the operation
sequence. -/
theorem expandScript_encodeOps (l : List CigarOp) :
    expandScript (encodeOps l) = l := by
  induction l with
  | nil => rfl
  | cons a rest ih =>
      rw [encodeOps_cons]
      cases hrec : encodeOps rest with
      | nil =>
          have : rest = [] := encodeOps_eq_nil rest hrec
          subst this
          simp [expandScript]
      | cons q tail =>
          rw [hrec] at ih
          cases q with
          | mk b m =>
              have ih2 : List.replicate m b ++ expandScript tail = rest := ih
              by_cases hab : a = b
              · subst hab
                simp only [if_pos rfl]
                show List.replicate (m + 1) a ++ expandScript tail = a :: rest
                rw [List.replicate_succ, List.cons_append, ih2]
              · simp only [if_neg hab]
                show List.replicate 1 a ++ (List.replicate m b ++ expandScript tail) =
                  a :: rest
                rw [ih2]
                simp

/-- Decoding a script whose run lengths are all positive succeeds and
yields its expansion. -/
theorem decodeOps_pos (s : Script) (h : ∀ p ∈ s, 0 < p.2) :
    decodeOps s = Except.ok (expandScript s) := by
  induction s with
  | nil => rfl
  | cons p rest ih =>
      cases p with
      | mk op n =>
          cases n with
          | zero => exact absurd (h (op, 0) (by simp)) (by simp)
          | succ k =>
              simp only [decodeOps]
              rw [ih (fun q hq => h q (by simp [hq]))]
              simp [Except.map, expandScript]

/-- Decoding a script that contains a zero run length fails. -/
theorem decodeOps_zero (s : Script) (h : ∃ p ∈ s, p.2 = 0) :
    decodeOps s = Except.error DecodeError.zeroLengthRun := by
  induction s with
  | nil => simp at h
  | cons p rest ih =>
      cases p with
      | mk op n =>
          cases n with
          | zero => rfl
          | succ k =>
              have : ∃ q ∈ rest, q.2 = 0 := by
                rcases h with ⟨q, hq, hq0⟩
                rcases List.mem_cons.mp hq with hq | hq
                · exfalso; rw [hq] at hq0; simp at hq0
                · exact ⟨q, hq, hq0⟩
              simp only [decodeOps]
              rw [ih this]
              rfl

/-- Prepending `n + 1` copies of an operation to a sequence either grows
the first run of its encoding (same leading operation) or prefixes a new
run. -/
theorem encodeOps_replicate_append (a : CigarOp) (l : List CigarOp) :
    ∀ n : Nat, encodeOps (List.replicate (n + 1) a ++ l) =
      match encodeOps l with
      | [] => [(a, n + 1)]
      | (b, m) :: tail =>
          if a = b then (a, n + 1 + m) :: tail else (a, n + 1) :: (b, m) :: tail := by
  intro n
  induction n with
  | zero =>
      rw [show List.replicate (0 + 1) a ++ l = a :: l by simp]
      rw [encodeOps_cons]
      cases hrec : encodeOps l with
      | nil => simp only [hrec]
      | cons q tail =>
          simp only [hrec]
          cases q with
          | mk b m =>
              by_cases hab : a = b
              · subst hab
                simp [Nat.add_comm]
              · simp [hab]
  | succ k ih =>
      rw [show List.replicate (k + 1 + 1) a ++ l = a :: (List.replicate (k + 1) a ++ l) by
            rw [List.replicate_succ, List.cons_append]]
      rw [encodeOps_cons, ih]
      cases hrec : encodeOps l with
      | nil => simp only [hrec]; simp
      | cons q tail =>
          simp only [hrec]
          cases q with
          | mk b m =>
              by_cases hab : a = b
              · subst hab
                simp
                omega
              · simp [hab]

/-- Encoding the expansion of a canonical run-length script (positive
lengths, no two adjacent runs with the same operation) recovers the
script. -/
theorem encodeOps_expandScript (s : Script)
    (hpos : ∀ p ∈ s, 0 < p.2)
    (hchain : List.Chain' (fun p q : CigarOp × Nat => p.1 ≠ q.1) s) :
    encodeOps (expandScript s) = s := by
  induction s with
  | nil => rfl
  | cons p rest ih =>
      cases p with
      | mk op n =>
          cases n with
          | zero => exact absurd (hpos (op, 0) (by simp)) (by simp)
          | succ k =>
              have ihr : encodeOps (expandScript rest) = rest :=
                ih (fun q hq => hpos q (by simp [hq])) hchain.tail
              simp only [expandScript]
              rw [encodeOps_replicate_append op (expandScript rest) k]
              rw [ihr]
              cases rest with
              | nil => rfl
              | cons q tail =>
                  have hne : op ≠ q.1 := by
                    have := (List.chain'_cons.mp hchain).1
                    simpa using this
                  cases q with
                  | mk b m => simp only at hne; simp [hne]

/-- Reading off the natural run lengths undoes `toRunLens`. -/
theorem natOps_toRunLens (s : Script) (h : ∀ p ∈ s, p.2 < 2 ^ 32) :
    (Cigar.mk (toRunLens s h)).natOps = s := by
  simp only [Cigar.natOps]
  induction s with
  | nil => rfl
  | cons p rest ih =>
      simp only [toRunLens, List.map_cons]
      rw [ih]

/-- The unit cost model charges exactly the number of non-`Match` unit
operations. -/
theorem unitCost_eq (s : Script) :
    unitCost s = (((expandScript s).count CigarOp.Sub +
      (expandScript s).count CigarOp.Del +
      (expandScript s).count CigarOp.Ins : Nat) : Int) := by
  induction s with
  | nil => rfl
  | cons p rest ih =>
      cases p with
      | mk op n =>
          simp only [unitCost, expandScript, List.count_append, List.count_replicate]
          cases op <;> simp [ih] <;> ring

/-- The linear cost model charges `sub` per substitution unit and
`indel` per deletion or insertion unit. -/
theorem linearCost_eq (sub indel : Cost) (s : Script) :
    linearCost sub indel s =
      sub * ((expandScript s).count CigarOp.Sub : Int) +
        indel * (((expandScript s).count CigarOp.Del +
          (expandScript s).count CigarOp.Ins : Nat) : Int) := by
  induction s with
  | nil => simp [linearCost, expandScript]
  | cons p rest ih =>
      cases p with
      | mk op n =>
          simp only [linearCost, expandScript, List.count_append, List.count_replicate]
          cases op <;> simp [ih] <;> ring

/-- With no gap run open in the accumulator state, the head adjustment
vanishes. -/
theorem headAdj_none (gapopen : Cost) (s : Script) :
    headAdj gapopen none s = 0 := by
  cases s with
  | nil => rfl
  | cons p rest => cases p with | mk op n => simp [headAdj]

/-- The affine accumulator computes `sub` per substitution unit plus one
`open + extend * length` charge per maximal gap run, minus the `open` of
a head run that merely continues the gap already open in the accumulator
state. -/
theorem affineAux_eq (sub gapopen extend : Cost) :
    ∀ s : Script, (∀ p ∈ s, 0 < p.2) → ∀ prev : Option CigarOp,
      affineAux sub gapopen extend prev s =
        sub * ((expandScript s).count CigarOp.Sub : Int) +
          gapRunCharge gapopen extend (encodeOps (expandScript s)) -
          headAdj gapopen prev (encodeOps (expandScript s)) := by
  intro s
  induction s with
  | nil => intro _ prev; simp [affineAux, expandScript, encodeOps, gapRunCharge, headAdj]
  | cons p rest ih =>
      intro hpos prev
      cases p with
      | mk op n =>
          cases n with
          | zero => exact absurd (hpos (op, 0) (by simp)) (by simp)
          | succ k =>
              have ihr := ih (fun q hq => hpos q (by simp [hq]))
              simp only [expandScript]
              rw [encodeOps_replicate_append op (expandScript rest) k]
              cases hrec : encodeOps (expandScript rest) with
              | nil =>
                  simp only [hrec]
                  have hexp : expandScript rest = [] := encodeOps_eq_nil _ hrec
                  cases op
                  · simp [affineAux, ihr none, hrec, hexp, gapRunCharge, headAdj,
                      List.count_append, List.count_replicate, headAdj_none,
                      encodeOps_nil, isGapOp]
                  · simp [affineAux, ihr none, hrec, hexp, gapRunCharge, headAdj,
                      List.count_append, List.count_replicate, headAdj_none,
                      encodeOps_nil, isGapOp]
                  · simp only [affineAux, ihr (some CigarOp.Del), hrec, hexp]
                    simp [gapRunCharge, headAdj, isGapOp, List.count_append,
                      List.count_replicate, encodeOps_nil]
                    by_cases hprev : prev = some CigarOp.Del <;> simp [hprev]
                  · simp only [affineAux, ihr (some CigarOp.Ins), hrec, hexp]
                    simp [gapRunCharge, headAdj, isGapOp, List.count_append,
                      List.count_replicate, encodeOps_nil]
                    by_cases hprev : prev = some CigarOp.Ins <;> simp [hprev]
              | cons q tail =>
                  cases q with
                  | mk b m =>
                      simp only [hrec]
                      cases op
                      · by_cases hb : CigarOp.Match = b
                        · subst hb
                          simp [affineAux, ihr none, hrec, gapRunCharge, headAdj,
                            isGapOp, List.count_append, List.count_replicate,
                            headAdj_none]
                        · simp [affineAux, ihr none, hrec, gapRunCharge, headAdj,
                            isGapOp, List.count_append, List.count_replicate,
                            headAdj_none, hb]
                      · by_cases hb : CigarOp.Sub = b
                        · subst hb
                          simp [affineAux, ihr none, hrec, gapRunCharge, headAdj,
                            isGapOp, List.count_append, List.count_replicate,
                            headAdj_none]
                          ring
                        · simp [affineAux, ihr none, hrec, gapRunCharge, headAdj,
                            isGapOp, List.count_append, List.count_replicate,
                            headAdj_none, hb]
                          ring
                      · by_cases hb : CigarOp.Del = b
                        · subst hb
                          simp only [affineAux, ihr (some CigarOp.Del), hrec]
                          simp [gapRunCharge, headAdj, isGapOp, List.count_append,
                            List.count_replicate]
                          by_cases hprev : prev = some CigarOp.Del <;>
                            simp [hprev] <;> ring
                        · simp only [affineAux, ihr (some CigarOp.Del), hrec]
                          simp [gapRunCharge, headAdj, isGapOp, List.count_append,
                            List.count_replicate, hb, Ne.symm hb]
                          by_cases hprev : prev = some CigarOp.Del <;>
                            simp [hprev] <;> ring
                      · by_cases hb : CigarOp.Ins = b
                        · subst hb
                          simp only [affineAux, ihr (some CigarOp.Ins), hrec]
                          simp [gapRunCharge, headAdj, isGapOp, List.count_append,
                            List.count_replicate]
                          by_cases hprev : prev = some CigarOp.Ins <;>
                            simp [hprev] <;> ring
                        · simp only [affineAux, ihr (some CigarOp.Ins), hrec]
                          simp [gapRunCharge, headAdj, isGapOp, List.count_append,
                            List.count_replicate, hb, Ne.symm hb]
                          by_cases hprev : prev = some CigarOp.Ins <;>
                            simp [hprev] <;> ring

/-- C1: the partial-order comparison on positions is the explicit
four-way result over the product order: `le` holds iff both coordinates
are dominated, it is reflexive, comparison of a position with itself is
`Equal`, and any pair where one coordinate strictly increases while the
other strictly decreases compares `Incomparable` with `le` false in both
directions. -/
theorem pos_partial_order_spec (p q : Pos) :
    (p.le q = true ↔ p.i ≤ q.i ∧ p.j ≤ q.j)
    ∧ p.le p = true
    ∧ p.pcmp p = POrder.Equal
    ∧ (p.i < q.i → q.j < p.j →
        p.pcmp q = POrder.Incomparable ∧ p.le q = false ∧ q.le p = false)
    ∧ (p.j < q.j → q.i < p.i →
        p.pcmp q = POrder.Incomparable ∧ p.le q = false ∧ q.le p = false) := by
  refine ⟨by simp [Pos.le], by simp [Pos.le], by simp [Pos.pcmp], ?_, ?_⟩
  · intro h1 h2
    have hne : ¬ p = q := fun heq => by rw [heq] at h1; exact lt_irrefl _ h1
    have hle1 : p.le q = false := by simp [Pos.le]; omega
    have hle2 : q.le p = false := by simp [Pos.le]; omega
    exact ⟨by simp [Pos.pcmp, hne, hle1, hle2], hle1, hle2⟩
  · intro h1 h2
    have hne : ¬ p = q := fun heq => by rw [heq] at h1; exact lt_irrefl _ h1
    have hle1 : p.le q = false := by simp [Pos.le]; omega
    have hle2 : q.le p = false := by simp [Pos.le]; omega
    exact ⟨by simp [Pos.pcmp, hne, hle1, hle2], hle1, hle2⟩

/-- Witness for C1 at the concrete incomparable pair `(1,5)`, `(2,3)`. -/
theorem pos_partial_order_witness :
    Pos.pcmp ⟨1, 5⟩ ⟨2, 3⟩ = POrder.Incomparable
    ∧ Pos.le ⟨1, 5⟩ ⟨2, 3⟩ = false
    ∧ Pos.le ⟨2, 3⟩ ⟨1, 5⟩ = false :=
  (pos_partial_order_spec ⟨1, 5⟩ ⟨2, 3⟩).2.2.2.1 (by decide) (by decide)

/-- C8: `diag`, `anti_diag` and `mirror` are the stated pure total
functions, with the concrete values `diag (3,1) = 2`,
`anti_diag (3,1) = 4` and `mirror (3,1) = (1,3)`. -/
theorem pos_derived_values (p : Pos) :
    p.diag = p.i - p.j
    ∧ p.anti_diag = p.i + p.j
    ∧ p.mirror = Pos.mk p.j p.i
    ∧ (Pos.mk 3 1).diag = 2
    ∧ (Pos.mk 3 1).anti_diag = 4
    ∧ (Pos.mk 3 1).mirror = Pos.mk 1 3 :=
  ⟨rfl, rfl, rfl, by decide, by decide, by decide⟩

/-- C2: decoding the Cigar encoded from any unit-step operation sequence
returns exactly that sequence; and any canonical Cigar (positive run
lengths, no two adjacent pairs with the same operation) decodes
successfully and re-encodes to its own `(operation, run-length)` pairs. -/
theorem cigar_roundtrip :
    (∀ (ops : List CigarOp) (h : ops.length < 2 ^ 32),
        (Cigar.encode ops h).decode = Except.ok ops)
    ∧ ∀ c : Cigar, (∀ p ∈ c.operations, 0 < p.2.val) →
        List.Chain' (fun p q : CigarOp × RunLen => p.1 ≠ q.1) c.operations →
        ∃ ops, c.decode = Except.ok ops ∧ encodeOps ops = c.natOps := by
  constructor
  · intro ops h
    simp only [Cigar.decode, Cigar.encode]
    rw [natOps_toRunLens]
    rw [decodeOps_pos _ (encodeOps_pos ops)]
    rw [expandScript_encodeOps]
  · intro c hpos hchain
    have hpos' : ∀ p ∈ c.natOps, 0 < p.2 := by
      intro p hp
      rcases List.mem_map.mp hp with ⟨q, hq, rfl⟩
      exact hpos q hq
    refine ⟨expandScript c.natOps, ?_, ?_⟩
    · simp only [Cigar.decode]
      exact decodeOps_pos _ hpos'
    · apply encodeOps_expandScript _ hpos'
      simp only [Cigar.natOps, List.chain'_map]
      exact hchain

/-- Witness for C2: the spec's example path [M, M, D, I, I] encodes to
`[(Match,2),(Del,1),(Ins,2)]` and round-trips in both directions. -/
theorem cigar_roundtrip_witness :
    (Cigar.encode [CigarOp.Match, CigarOp.Match, CigarOp.Del, CigarOp.Ins, CigarOp.Ins]
        (by decide)).decode =
      Except.ok [CigarOp.Match, CigarOp.Match, CigarOp.Del, CigarOp.Ins, CigarOp.Ins]
    ∧ ∃ ops,
        (Cigar.mk [(CigarOp.Match, ⟨2, by decide⟩), (CigarOp.Del, ⟨1, by decide⟩),
          (CigarOp.Ins, ⟨2, by decide⟩)]).decode = Except.ok ops
        ∧ encodeOps ops =
          (Cigar.mk [(CigarOp.Match, ⟨2, by decide⟩), (CigarOp.Del, ⟨1, by decide⟩),
            (CigarOp.Ins, ⟨2, by decide⟩)]).natOps :=
  ⟨cigar_roundtrip.1 _ (by decide),
   cigar_roundtrip.2 _ (by decide) (by simp [List.chain'_cons])⟩

/-- C3: on scripts with positive run lengths, each cost-model variant
computes exactly the claim's formula: `Unit` counts non-`Match` units,
`Linear` charges `sub`/`indel` per unit, and `Affine` charges `sub` per
substitution unit plus `open + extend * length` per maximal same-kind
gap run (switching between `Del` and `Ins` opens a new run). -/
theorem costmodel_cost_spec (m : CostModel) (s : Script)
    (hpos : ∀ p ∈ s, 0 < p.2) :
    m.cost s = claimCost m s := by
  cases m with
  | Unit =>
      simp only [CostModel.cost, claimCost]
      exact unitCost_eq s
  | Linear sub indel =>
      simp only [CostModel.cost, claimCost]
      exact linearCost_eq sub indel s
  | Affine sub gapopen extend =>
      simp only [CostModel.cost, claimCost]
      rw [affineAux_eq sub gapopen extend s hpos none, headAdj_none]
      ring

/-- Witness for C3 at the spec's concrete examples. -/
theorem costmodel_cost_witness :
    (CostModel.Affine 2 3 1).cost [(CigarOp.Del, 4)] =
      claimCost (CostModel.Affine 2 3 1) [(CigarOp.Del, 4)]
    ∧ (CostModel.Affine 2 3 1).cost [(CigarOp.Del, 4)] = 7
    ∧ CostModel.Unit.cost [(CigarOp.Match, 3), (CigarOp.Sub, 1), (CigarOp.Del, 2)] = 3
    ∧ (CostModel.Linear 2 1).cost
        [(CigarOp.Match, 3), (CigarOp.Sub, 1), (CigarOp.Del, 2)] = 4 :=
  ⟨costmodel_cost_spec _ _ (by decide), by decide, by decide, by decide⟩

/-- C4: validating a `CostModel` fails with a configuration error exactly
when the variant's constraints are violated; `Linear{sub:0, indel:1}` is
rejected, and every value validation lets through is well-formed. -/
theorem costmodel_validate_spec :
    (∀ m : CostModel, (∃ e, m.validate = Except.error e) ↔ ¬ m.wellFormed)
    ∧ (∃ e, (CostModel.Linear 0 1).validate = Except.error e)
    ∧ ∀ m m' : CostModel, m.validate = Except.ok m' → m' = m ∧ m'.wellFormed := by
  refine ⟨?_, ?_, ?_⟩
  · intro m
    by_cases h : m.wellFormed
    · constructor
      · rintro ⟨e, he⟩
        rw [CostModel.validate, if_pos h] at he
        exact absurd he (by simp)
      · intro hn
        exact absurd h hn
    · constructor
      · intro _
        exact h
      · intro _
        exact ⟨ConfigError.invalidCostModel, by rw [CostModel.validate, if_neg h]⟩
  · refine ⟨ConfigError.invalidCostModel, ?_⟩
    have h : ¬ (CostModel.Linear 0 1).wellFormed := by
      intro hwf
      exact absurd hwf.1 (by norm_num)
    rw [CostModel.validate, if_neg h]
  · intro m m' h
    by_cases hwf : m.wellFormed
    · rw [CostModel.validate, if_pos hwf] at h
      simp only [Except.ok.injEq] at h
      subst h
      exact ⟨rfl, hwf⟩
    · rw [CostModel.validate, if_neg hwf] at h
      exact absurd h (by simp)

/-- Witness for C4: validation of a well-formed linear model succeeds
and returns the same well-formed value. -/
theorem costmodel_validate_witness :
    CostModel.Linear 1 2 = CostModel.Linear 1 2
    ∧ (CostModel.Linear 1 2).wellFormed := by
  have hwf : (CostModel.Linear 1 2).wellFormed := ⟨by norm_num, by norm_num⟩
  exact costmodel_validate_spec.2.2 (CostModel.Linear 1 2) (CostModel.Linear 1 2)
    (by rw [CostModel.validate, if_pos hwf])

/-- C7: decoding any Cigar containing a zero run-length pair fails with
the decode error; no unit-step sequence is produced. -/
theorem cigar_decode_zero_error (c : Cigar)
    (h : ∃ p ∈ c.operations, p.2.val = 0) :
    c.decode = Except.error DecodeError.zeroLengthRun := by
  simp only [Cigar.decode]
  apply decodeOps_zero
  rcases h with ⟨p, hp, h0⟩
  exact ⟨(p.1, p.2.val), List.mem_map.mpr ⟨p, hp, rfl⟩, h0⟩

/-- Witness for C7 at a concrete Cigar with a zero run length. -/
theorem cigar_decode_zero_witness :
    (Cigar.mk [(CigarOp.Match, ⟨0, by decide⟩)]).decode =
      Except.error DecodeError.zeroLengthRun :=
  cigar_decode_zero_error _
    ⟨(CigarOp.Match, ⟨0, by decide⟩), List.mem_cons_self _ _, rfl⟩

/-- C9: every run length stored in a Cigar is a non-negative integer
strictly below `2^32` (the `u32` range), while a zero run length is
representable: the positive-run-length invariant is not enforced by the
type. -/
theorem cigar_runlen_bounds :
    (∀ c : Cigar, ∀ p ∈ c.operations, p.2.val < 2 ^ 32 ∧ 0 ≤ p.2.val)
    ∧ ∃ c : Cigar, ∃ p ∈ c.operations, p.2.val = 0 := by
  constructor
  · intro c p _
    exact ⟨p.2.property, Nat.zero_le _⟩
  · exact ⟨Cigar.mk [(CigarOp.Sub, ⟨0, by norm_num⟩)],
      (CigarOp.Sub, ⟨0, by norm_num⟩), List.mem_cons_self _ _, rfl⟩

/-- Witness for C9 at a concrete Cigar pair. -/
theorem cigar_runlen_bounds_witness :
    (CigarOp.Del, (⟨3, by decide⟩ : RunLen)).2.val < 2 ^ 32
    ∧ 0 ≤ (CigarOp.Del, (⟨3, by decide⟩ : RunLen)).2.val :=
  cigar_runlen_bounds.1 (Cigar.mk [(CigarOp.Del, ⟨3, by decide⟩)]) _
    (List.mem_cons_self _ _)

/-- `takeWhile`/`dropWhile` split an appended list exactly at the
boundary when the prefix satisfies the predicate throughout and the
suffix starts with a failing element (or is empty). -/
theorem takeWhile_all_append (p : Char → Bool) :
    ∀ ds rest : List Char, (∀ c ∈ ds, p c = true) →
      (∀ r, rest.head? = some r → p r = false) →
      (ds ++ rest).takeWhile p = ds ∧ (ds ++ rest).dropWhile p = rest := by
  intro ds
  induction ds with
  | nil =>
      intro rest _ h2
      cases rest with
      | nil => exact ⟨rfl, rfl⟩
      | cons r t =>
          have hr := h2 r rfl
          simp [List.takeWhile_cons, List.dropWhile_cons, hr]
  | cons d ds ih =>
      intro rest h1 h2
      have hd : p d = true := h1 d (by simp)
      have h := ih rest (fun c hc => h1 c (by simp [hc])) h2
      simp [List.takeWhile_cons, List.dropWhile_cons, hd, h.1, h.2]

/-- C5: `parse_bytes` returns the exact byte count: a bare digit string
is its decimal value, a digit string followed by a space and a suffix
multiplies by the suffix's multiplier obtained case-insensitively
(base 1000 for `B`/`K`/`M`/`G`, base 1024 for `Ki`/`Mi`/`Gi`), and any
unknown suffix is a parse error; in particular `"1 KiB" = 1024`,
`"1 KB" = 1000`, `"1234" = 1234` and `"1 xyz"` fails. -/
theorem parse_bytes_spec (ds suf : List Char) (m : Nat)
    (hds : ds ≠ [])
    (hdig : ∀ c ∈ ds, c.isDigit = true)
    (hsuf : suf.head? ≠ some ' ') :
    parseBytes ⟨ds⟩ = Except.ok (digitsToNat ds)
    ∧ (suffixMult (suf.map Char.toLower) = some m →
        parseBytes ⟨ds ++ ' ' :: suf⟩ = Except.ok (digitsToNat ds * m))
    ∧ (suffixMult (suf.map Char.toLower) = none →
        parseBytes ⟨ds ++ ' ' :: suf⟩ = Except.error ParseError.badSuffix)
    ∧ parseBytes ("1 KiB") = Except.ok 1024
    ∧ parseBytes ("1 kib") = Except.ok 1024
    ∧ parseBytes ("1 KB") = Except.ok 1000
    ∧ parseBytes ("1234") = Except.ok 1234
    ∧ parseBytes ("1 xyz") = Except.error ParseError.badSuffix := by
  have hempty : ds.isEmpty = false := by
    cases ds
    · exact absurd rfl hds
    · rfl
  have hsplit := takeWhile_all_append (fun c => c.isDigit) ds (' ' :: suf) hdig
    (by intro r hr; simp only [List.head?_cons, Option.some.injEq] at hr; subst hr; rfl)
  have hdw : (' ' :: suf).dropWhile (fun c => c == ' ') = suf := by
    have hsuf' : ∀ r, suf.head? = some r → (r == ' ') = false := by
      intro r hr
      by_cases hrs : r = ' '
      · subst hrs
        exact absurd hr hsuf
      · simp [hrs]
    have h := takeWhile_all_append (fun c => c == ' ') [] suf (by simp) hsuf'
    simp only [List.nil_append] at h
    simp [List.dropWhile_cons, h.2]
  have hgen : ∀ r : Except ParseError Bytes,
      (match suffixMult (suf.map Char.toLower) with
        | some mm => Except.ok (digitsToNat ds * mm)
        | none => Except.error ParseError.badSuffix) = r →
      parseBytes ⟨ds ++ ' ' :: suf⟩ = r := by
    intro r hr
    simp only [parseBytes, String.toList]
    rw [hsplit.1, hsplit.2, hempty]
    simp only [Bool.false_eq_true, if_false]
    rw [hdw]
    exact hr
  refine ⟨?_, ?_, ?_, rfl, rfl, rfl, rfl, rfl⟩
  · have h := takeWhile_all_append (fun c => c.isDigit) ds [] hdig (by simp)
    simp only [List.append_nil] at h
    simp only [parseBytes, String.toList]
    rw [h.1, h.2, hempty]
    simp [suffixMult]
  · intro hm
    exact hgen _ (by rw [hm])
  · intro hm
    exact hgen _ (by rw [hm])

/-- Witness for C5 at the concrete input `"2 k"`. -/
theorem parse_bytes_spec_witness :
    parseBytes ⟨['2'] ++ ' ' :: ['k']⟩ = Except.ok (digitsToNat ['2'] * 1000) :=
  (parse_bytes_spec ['2'] ['k'] 1000 (by decide) (by decide) (by decide)).2.1 (by rfl)

/-- C10: `parse_bytes` is total and deterministic: on every input it
returns either a byte count or a parse error, and equal inputs give
equal results. -/
theorem parse_bytes_total_deterministic (s t : String) :
    ((∃ n, parseBytes s = Except.ok n) ∨ ∃ e, parseBytes s = Except.error e)
    ∧ (s = t → parseBytes s = parseBytes t) := by
  constructor
  · cases h : parseBytes s with
    | error e => exact Or.inr ⟨e, rfl⟩
    | ok n => exact Or.inl ⟨n, rfl⟩
  · intro h
    rw [h]

/-- Witness for C10 at a concrete input. -/
theorem parse_bytes_total_deterministic_witness :
    parseBytes ("1234") = parseBytes ("1234") :=
  (parse_bytes_total_deterministic ("1234") ("1234")).2 rfl

/-- Cost models deserialize back from their serialized tagged form. -/
theorem deserializeCostModel_serialize (cm : CostModel) :
    deserializeCostModel (serializeCostModel cm) = Except.ok cm := by
  cases cm <;> rfl

/-- Algorithms deserialize back from their serialized tagged form. -/
theorem deserializeAlgorithm_serialize (a : Algorithm) :
    deserializeAlgorithm (serializeAlgorithm a) = Except.ok a := by
  cases a with
  | BlockAligner c mn mx =>
      cases c
      rfl

/-- Jobs deserialize back from their serialized form. -/
theorem deserializeJob_serialize (j : Job) :
    deserializeJob (serializeJob j) = Except.ok j := by
  cases j with
  | mk d cm t alg =>
      simp only [serializeJob, deserializeJob]
      rw [deserializeCostModel_serialize, deserializeAlgorithm_serialize]

/-- C6: a `JobResult` with `output = none` serializes (to a `null`
output field, with no placeholder `JobOutput`) and deserializes back to
itself, and it stays distinguishable from a result whose output is a
`JobOutput` with empty cost and Cigar sequences: the serialized forms
differ and the two values differ. -/
theorem jobresult_none_distinguishable (job : Job) (rt : Duration) (mem : Bytes) :
    deserializeJobResult (serializeJobResult ⟨job, none⟩) = Except.ok ⟨job, none⟩
    ∧ deserializeJobResult (serializeJobResult ⟨job, some ⟨rt, mem, [], []⟩⟩) =
        Except.ok ⟨job, some ⟨rt, mem, [], []⟩⟩
    ∧ serializeJobResult ⟨job, none⟩ ≠ serializeJobResult ⟨job, some ⟨rt, mem, [], []⟩⟩
    ∧ (⟨job, none⟩ : JobResult) ≠ ⟨job, some ⟨rt, mem, [], []⟩⟩ := by
  refine ⟨?_, ?_, ?_, ?_⟩
  · simp only [serializeJobResult, deserializeJobResult]
    rw [deserializeJob_serialize]
  · simp only [serializeJobResult, serializeJobOutput, deserializeJobResult]
    rw [deserializeJob_serialize]
    rfl
  · intro h
    simp [serializeJobResult, serializeJobOutput] at h
  · intro h
    simp at h

end PaTypes
